import Mathlib

/-!
Verification of the task-classification module of Smart-Task-Manager
(`src/lib/classification.ts`), shallowly embedded over `List Char`.
Strings are lists of characters; JavaScript `String.prototype.includes`,
`toLowerCase`, the keyword tables and the regex-based entity extractors are
translated function by function.
-/

namespace STM

/-- The five task categories, in the declared order of `categoryKeywords`. -/
inductive TaskCategory where
  | scheduling | finance | technical | safety | general
deriving DecidableEq, Repr

/-- The three task priorities. -/
inductive TaskPriority where
  | high | medium | low
deriving DecidableEq, Repr

/-- Text is a list of characters. -/
abbrev Str := List Char

/-- Shorthand turning a string literal into a character list. -/
def str (s : String) : Str := s.toList

/-- JS `toLowerCase`, restricted to ASCII (all keywords are ASCII). -/
def lowerStr (s : Str) : Str := s.map Char.toLower

/-- JS `hay.includes(needle)`: substring containment. -/
def strIncludes : Str → Str → Bool
  | [], needle => needle.isEmpty
  | c :: t, needle => needle.isPrefixOf (c :: t) || strIncludes t needle

/-- `categoryKeywords` from the source, as a map from category to keyword list. -/
def categoryKeywords : TaskCategory → List Str
  | .scheduling => [str "meeting", str "schedule", str "call", str "appointment",
      str "deadline", str "calendar", str "event", str "reminder", str "agenda"]
  | .finance => [str "payment", str "invoice", str "bill", str "budget", str "cost",
      str "expense", str "money", str "price", str "financial", str "revenue"]
  | .technical => [str "bug", str "fix", str "error", str "install", str "repair",
      str "maintain", str "update", str "deploy", str "code", str "system", str "server"]
  | .safety => [str "safety", str "hazard", str "inspection", str "compliance",
      str "ppe", str "risk", str "emergency", str "warning", str "secure"]
  | .general => []

/-- The key order of the `categoryKeywords` object literal, as iterated by
`Object.entries`. -/
def categoryOrder : List TaskCategory :=
  [.scheduling, .finance, .technical, .safety, .general]

/-- `priorityKeywords` from the source. -/
def priorityKeywords : TaskPriority → List Str
  | .high => [str "urgent", str "asap", str "immediately", str "today", str "critical",
      str "emergency", str "now", str "priority", str "important"]
  | .medium => [str "soon", str "this week", str "important", str "needed", str "should"]
  | .low => [str "whenever", str "low priority", str "eventually", str "later", str "someday"]

/-- `suggestedActions` from the source. -/
def suggestedActions : TaskCategory → List String
  | .scheduling => ["Block calendar", "Send invite", "Prepare agenda", "Set reminder"]
  | .finance => ["Check budget", "Get approval", "Generate invoice", "Update records"]
  | .technical => ["Diagnose issue", "Check resources", "Assign technician", "Document fix"]
  | .safety => ["Conduct inspection", "File report", "Notify supervisor", "Update checklist"]
  | .general => ["Review requirements", "Assign team member", "Set deadline", "Create subtasks"]

/-- The inner keyword loop of `classifyCategory`: `score` starts at 0 and is
incremented once per keyword contained in the lowercased text. -/
def scoreKeywords (lower : Str) (kws : List Str) : Nat :=
  kws.foldl (fun score k => if strIncludes lower k then score + 1 else score) 0

/-- The `for (const [category, keywords] of Object.entries(categoryKeywords))`
loop of `classifyCategory`, carrying `maxScore` and `bestCategory`. -/
def classifyCategoryLoop (lower : Str) : List TaskCategory → Nat → TaskCategory → TaskCategory
  | [], _, best => best
  | c :: rest, maxScore, best =>
    if c = .general then classifyCategoryLoop lower rest maxScore best
    else
      let score := scoreKeywords lower (categoryKeywords c)
      if maxScore < score then classifyCategoryLoop lower rest score c
      else classifyCategoryLoop lower rest maxScore best

/-- `classifyCategory` from the source. -/
def classifyCategory (text : Str) : TaskCategory :=
  classifyCategoryLoop (lowerStr text) categoryOrder 0 .general

/-- One priority keyword loop of `classifyPriority`: returns whether some
keyword of the list is contained in the lowercased text (first match wins). -/
def anyKeywordMatch (lower : Str) : List Str → Bool
  | [] => false
  | k :: rest => if strIncludes lower k then true else anyKeywordMatch lower rest

/-- `classifyPriority` from the source: high keywords first, then medium,
default low. -/
def classifyPriority (text : Str) : TaskPriority :=
  let lower := lowerStr text
  if anyKeywordMatch lower (priorityKeywords .high) then .high
  else if anyKeywordMatch lower (priorityKeywords .medium) then .medium
  else .low

/-! ### Spec-side formulations of the classifiers -/

/-- Modelled from the spec: a category's score is the number of *distinct
keywords* of the category found as substrings of the lowercased text. -/
def specScore (lower : Str) (c : TaskCategory) : Nat :=
  ((categoryKeywords c).filter (fun k => strIncludes lower k)).length

/-- The non-general categories in declared order. -/
def nonGeneral : List TaskCategory := [.scheduling, .finance, .technical, .safety]

/-- The highest category score. -/
def specMaxScore (lower : Str) : Nat :=
  (nonGeneral.map (specScore lower)).foldr max 0

/-- Modelled from the spec's words: if every category scores 0 the result is
`general`; otherwise the result is the first category in declared order
scheduling, finance, technical, safety whose score equals the highest score
(so on a tie of scores the earlier category wins). -/
def classifyCategorySpec (text : Str) : TaskCategory :=
  let lower := lowerStr text
  let m := specMaxScore lower
  if m = 0 then .general
  else if specScore lower .scheduling = m then .scheduling
  else if specScore lower .finance = m then .finance
  else if specScore lower .technical = m then .technical
  else .safety

/-! ### Character classes and primitive matchers for the fixed regexes

The entity extractors of the source use a fixed set of JavaScript regexes.
Each regex is embedded as a hand-specialised matcher: given the character
before the current position (for `\b`) and the text from the current
position, it returns the total number of characters consumed together with
the payload collected by the source (the full match, or capture group 1).
Greedy repetition and the bounded backtracking the concrete patterns need
are spelled out; character classes are the ASCII ones. -/

/-- JS regex word character `\w`, i.e. `[A-Za-z0-9_]`. -/
def isWordChar (c : Char) : Bool :=
  ('a' ≤ c && c ≤ 'z') || ('A' ≤ c && c ≤ 'Z') || ('0' ≤ c && c ≤ '9') || c = '_'

/-- One side of a `\b` check: no character there, or a non-word character. -/
def nonWordOpt : Option Char → Bool
  | none => true
  | some c => !(isWordChar c)

/-- JS `\d`. -/
def isDigitB (c : Char) : Bool := '0' ≤ c && c ≤ '9'

def isLowerB (c : Char) : Bool := 'a' ≤ c && c ≤ 'z'

def isUpperB (c : Char) : Bool := 'A' ≤ c && c ≤ 'Z'

def isLetterB (c : Char) : Bool := isLowerB c || isUpperB c

def isAlnumB (c : Char) : Bool := isLetterB c || isDigitB c

/-- JS `\s`, restricted to ASCII whitespace. -/
def isSpaceB (c : Char) : Bool :=
  c = ' ' || c = '\t' || c = '\n' || c = '\r' || c = '\x0b' || c = '\x0c'

/-- Case-insensitive literal: number of characters consumed when the
lowercased input starts with the pattern. -/
def matchLitCI : Str → Str → Option Nat
  | [], _ => some 0
  | _ :: _, [] => none
  | p :: ps, c :: cs =>
    if Char.toLower c = p then (matchLitCI ps cs).map (· + 1) else none

/-- Case-sensitive literal. -/
def matchLitCS : Str → Str → Option Nat
  | [], _ => some 0
  | _ :: _, [] => none
  | p :: ps, c :: cs => if c = p then (matchLitCS ps cs).map (· + 1) else none

/-- Length of the maximal prefix of characters satisfying `p` (greedy star). -/
def takeWhileCount (p : Char → Bool) : Str → Nat
  | [] => 0
  | c :: cs => if p c then takeWhileCount p cs + 1 else 0

/-- `l` has at least `n` leading characters satisfying `p`. -/
def hasNChars (p : Char → Bool) (n : Nat) (l : Str) : Bool :=
  decide (n ≤ l.length) && (l.take n).all p

/-- Greedy bounded repetition `p{i,j}` followed by `k`: the counts are tried
in the given (longest-first) order, backtracking into `k`. -/
def tryCounts (p : Char → Bool) (k : Str → Option Nat) : List Nat → Str → Option Nat
  | [], _ => none
  | n :: rest, l =>
    if hasNChars p n l then
      match k (l.drop n) with
      | some m => some (n + m)
      | none => tryCounts p k rest l
    else tryCounts p k rest l

/-- First alternative matching case-insensitively (JS alternation order). -/
def firstAltCI : List Str → Str → Option Nat
  | [], _ => none
  | a :: rest, l =>
    match matchLitCI a l with
    | some n => some n
    | none => firstAltCI rest l

/-- First alternative matching case-insensitively and followed by `\b`; on a
failing boundary the next alternative is tried. -/
def firstAltEndB : List Str → Str → Option Nat
  | [], _ => none
  | a :: rest, l =>
    match matchLitCI a l with
    | some n => if nonWordOpt (l.drop n).head? then some n else firstAltEndB rest l
    | none => firstAltEndB rest l

/-- First alternative matching case-sensitively. -/
def firstAltCS : List Str → Str → Option Nat
  | [], _ => none
  | a :: rest, l =>
    match matchLitCS a l with
    | some n => some n
    | none => firstAltCS rest l

/-! ### The seven `datePatterns` -/

/-- `\b(alt|...)\b` with flags `gi` (patterns 1, 2 of `datePatterns` and the
action-verb pattern). -/
def wordListPat (alts : List Str) (prev : Option Char) (l : Str) : Option Nat :=
  if nonWordOpt prev then firstAltEndB alts l else none

/-- `\blit(alt|...)\b` with flags `gi` (patterns 6 and 7 of `datePatterns`). -/
def prefixedAltsPat (lit : Str) (alts : List Str) (prev : Option Char) (l : Str) :
    Option Nat :=
  if nonWordOpt prev then
    match matchLitCI lit l with
    | some n => (firstAltEndB alts (l.drop n)).map (fun m => n + m)
    | none => none
  else none

/-- Tail `(S\d{2,4})?\b` of the numeric date patterns, `S` the separator. -/
def numTailPat (sep : Char) (l3 : Str) : Option Nat :=
  let noGroup : Option Nat := if nonWordOpt l3.head? then some 0 else none
  match l3 with
  | c :: l4 =>
    if c = sep then
      match tryCounts isDigitB (fun l5 => if nonWordOpt l5.head? then some 0 else none)
          [4, 3, 2] l4 with
      | some m => some (1 + m)
      | none => noGroup
    else noGroup
  | [] => noGroup

/-- `\b\d{1,2}S\d{1,2}(S\d{2,4})?\b` (patterns 3 and 4 of `datePatterns`). -/
def numDatePat (sep : Char) (prev : Option Char) (l : Str) : Option Nat :=
  if nonWordOpt prev then
    tryCounts isDigitB (fun l1 =>
      match l1 with
      | c :: l2 =>
        if c = sep then
          (tryCounts isDigitB (numTailPat sep) [2, 1] l2).map (fun m => 1 + m)
        else none
      | [] => none) [2, 1] l
  else none

def monthNames : List Str :=
  [str "jan", str "feb", str "mar", str "apr", str "may", str "jun",
   str "jul", str "aug", str "sep", str "oct", str "nov", str "dec"]

/-- Tail `(,? \d{4})?\b` of the month date pattern: the optional group is
tried greedily (with the comma first), falling back to the bare boundary. -/
def monthTail (l3 : Str) : Option Nat :=
  let noGroup : Option Nat := if nonWordOpt l3.head? then some 0 else none
  let afterComma : Str → Option Nat := fun l4 =>
    match l4 with
    | ' ' :: l5 =>
      if hasNChars isDigitB 4 l5 && nonWordOpt ((l5.drop 4).head?) then some 5 else none
    | _ => none
  match l3 with
  | ',' :: l4 =>
    match afterComma l4 with
    | some m => some (1 + m)
    | none => noGroup
  | _ =>
    match afterComma l3 with
    | some m => some m
    | none => noGroup

/-- `\b(jan|...|dec)[a-z]* \d{1,2}(,? \d{4})?\b` with flags `gi` (pattern 5 of
`datePatterns`); under flag `i` the class `[a-z]` also matches uppercase. -/
def monthDatePat (prev : Option Char) (l : Str) : Option Nat :=
  if nonWordOpt prev then
    match firstAltCI monthNames l with
    | some n =>
      let l1 := l.drop n
      let letters := takeWhileCount isLetterB l1
      match l1.drop letters with
      | ' ' :: l3 =>
        (tryCounts isDigitB monthTail [2, 1] l3).map (fun m => n + letters + 1 + m)
      | _ => none
    | none => none
  else none

def dayRelWords : List Str := [str "today", str "tomorrow", str "yesterday"]

def weekdayWords : List Str :=
  [str "monday", str "tuesday", str "wednesday", str "thursday", str "friday",
   str "saturday", str "sunday"]

def thisWords : List Str := [str "week", str "month", str "year"]

def nextWords : List Str :=
  [str "week", str "month", str "monday", str "tuesday", str "wednesday",
   str "thursday", str "friday"]

/-! ### Person, location and action-verb patterns -/

/-- One capitalized word `[A-Z][a-z]+`: its length, if present. -/
def nameWord (l : Str) : Option Nat :=
  match l with
  | c :: rest =>
    if isUpperB c then
      let k := takeWhileCount isLowerB rest
      if k = 0 then none else some (1 + k)
    else none
  | [] => none

/-- Greedy `(?:\s+[A-Z][a-z]+)?`: extra characters consumed, 0 if absent. -/
def nameOptExt (l : Str) : Nat :=
  let sp := takeWhileCount isSpaceB l
  if sp = 0 then 0
  else
    match nameWord (l.drop sp) with
    | some m => sp + m
    | none => 0

/-- Greedy `(?:\s+[A-Z][a-z]+)*` with structural fuel (each iteration consumes
at least two characters, so `l.length` fuel always suffices). -/
def nameSeqAux : Nat → Str → Nat
  | 0, _ => 0
  | fuel + 1, l =>
    let sp := takeWhileCount isSpaceB l
    if sp = 0 then 0
    else
      match nameWord (l.drop sp) with
      | some m => sp + m + nameSeqAux fuel (l.drop (sp + m))
      | none => 0

def nameSeqExt (l : Str) : Nat := nameSeqAux l.length l

/-- Alternatives of `(?:with|by|assign(?:ed)? to|contact|notify|tell|inform|call)`
in JS order; the greedy optional `(?:ed)?` is expanded longest-first. -/
def personLeads : List Str :=
  [str "with", str "by", str "assigned to", str "assign to", str "contact",
   str "notify", str "tell", str "inform", str "call"]

/-- Person pattern 1 (case-sensitive, no `g`-irrelevant flags):
`(?:with|by|assign(?:ed)? to|contact|notify|tell|inform|call)\s+([A-Z][a-z]+(?:\s+[A-Z][a-z]+)?)`;
the payload is capture group 1. -/
def personPat1 (l : Str) : Option (Nat × Str) :=
  match firstAltCS personLeads l with
  | some n =>
    let l1 := l.drop n
    let sp := takeWhileCount isSpaceB l1
    if sp = 0 then none
    else
      let l2 := l1.drop sp
      match nameWord l2 with
      | some m1 =>
        let ext := nameOptExt (l2.drop m1)
        some (n + sp + m1 + ext, l2.take (m1 + ext))
      | none => none
  | none => none

/-- Person pattern 2: `@(\w+)`; the payload is capture group 1. -/
def personPat2 (l : Str) : Option (Nat × Str) :=
  match l with
  | '@' :: rest =>
    let k := takeWhileCount isWordChar rest
    if k = 0 then none else some (1 + k, rest.take k)
  | _ => none

def locationLeads1 : List Str :=
  [str "at", str "in", str "to", str "from", str "room", str "office",
   str "building", str "site"]

/-- Location pattern 1 (case-sensitive):
`(?:at|in|to|from|room|office|building|site)\s+([A-Z][a-z]+(?:\s+[A-Z][a-z]+)*)`. -/
def locationPat1 (l : Str) : Option (Nat × Str) :=
  match firstAltCS locationLeads1 l with
  | some n =>
    let l1 := l.drop n
    let sp := takeWhileCount isSpaceB l1
    if sp = 0 then none
    else
      let l2 := l1.drop sp
      match nameWord l2 with
      | some m1 =>
        let ext := nameSeqExt (l2.drop m1)
        some (n + sp + m1 + ext, l2.take (m1 + ext))
      | none => none
  | none => none

def locationLeads2 : List Str := [str "room", str "office", str "building", str "site"]

/-- Location pattern 2 (flags `gi`): `(?:room|office|building|site)\s+([A-Za-z0-9]+)`. -/
def locationPat2 (l : Str) : Option (Nat × Str) :=
  match firstAltCI locationLeads2 l with
  | some n =>
    let l1 := l.drop n
    let sp := takeWhileCount isSpaceB l1
    if sp = 0 then none
    else
      let k := takeWhileCount isAlnumB (l1.drop sp)
      if k = 0 then none else some (n + sp + k, (l1.drop sp).take k)
  | none => none

def actionVerbWords : List Str :=
  [str "schedule", str "create", str "review", str "complete", str "send", str "call",
   str "email", str "update", str "fix", str "check", str "prepare", str "submit",
   str "approve", str "cancel", str "organize", str "setup", str "plan", str "meet",
   str "discuss", str "analyze", str "implement", str "deploy"]

/-! ### The global-regex scanner and the extractors -/

/-- Wraps a full-match pattern into the scanner interface: the payload is the
matched text itself. -/
def matchStyle (core : Option Char → Str → Option Nat) (prev : Option Char) (l : Str) :
    Option (Nat × Str) :=
  (core prev l).map (fun n => (n, l.take n))

/-- One pass of a JS global regex: try every position left to right, emit each
leftmost match's payload, resume right after the matched characters (an empty
match advances by one, as `lastIndex` does); `prev` is the character before
the current position, for `\b`.  Structural fuel: each step consumes at least
one character, so `l.length` fuel always suffices. -/
def scanAux (m : Option Char → Str → Option (Nat × Str)) :
    Nat → Option Char → Str → List Str
  | 0, _, _ => []
  | _ + 1, _, [] => []
  | fuel + 1, prev, c :: rest =>
    match m prev (c :: rest) with
    | some (n, payload) =>
      payload ::
        scanAux m fuel (some (((c :: rest).take (max n 1)).getLastD c))
          ((c :: rest).drop (max n 1))
    | none => scanAux m fuel (some c) rest

/-- All payloads of a JS global regex over the text. -/
def scanWith (m : Option Char → Str → Option (Nat × Str)) (prev : Option Char) (l : Str) :
    List Str :=
  scanAux m l.length prev l

/-- JS `Set.prototype.add` under `Array.from`: insertion order, no duplicates. -/
def setAdd (ds : List Str) (x : Str) : List Str :=
  if x ∈ ds then ds else ds ++ [x]

def addAll (ds : List Str) (ms : List Str) : List Str := ms.foldl setAdd ds

/-- JS `trim` (ASCII whitespace). -/
def trimStr (s : Str) : Str :=
  ((s.dropWhile isSpaceB).reverse.dropWhile isSpaceB).reverse

/-- Pattern 7 of `datePatterns`, named for the claims about "next monday". -/
def nextDatePat : Option Char → Str → Option (Nat × Str) :=
  matchStyle (prefixedAltsPat (str "next ") nextWords)

/-- The seven `datePatterns` of the source, in order. -/
def datePatterns : List (Option Char → Str → Option (Nat × Str)) :=
  [matchStyle (wordListPat dayRelWords),
   matchStyle (wordListPat weekdayWords),
   matchStyle (numDatePat '/'),
   matchStyle (numDatePat '-'),
   matchStyle monthDatePat,
   matchStyle (prefixedAltsPat (str "this ") thisWords),
   nextDatePat]

/-- `extractDates` from the source: each pattern's full matches, lowercased,
added to an insertion-ordered set. -/
def extractDates (text : Str) : List Str :=
  datePatterns.foldl (fun ds pat => addAll ds ((scanWith pat none text).map lowerStr)) []

def personPatterns : List (Option Char → Str → Option (Nat × Str)) :=
  [fun _ l => personPat1 l, fun _ l => personPat2 l]

/-- `extractPeople` from the source: capture group 1 of every match, trimmed. -/
def extractPeople (text : Str) : List Str :=
  personPatterns.foldl (fun ps pat => addAll ps ((scanWith pat none text).map trimStr)) []

def locationPatterns : List (Option Char → Str → Option (Nat × Str)) :=
  [fun _ l => locationPat1 l, fun _ l => locationPat2 l]

/-- `extractLocations` from the source. -/
def extractLocations (text : Str) : List Str :=
  locationPatterns.foldl (fun ps pat => addAll ps ((scanWith pat none text).map trimStr)) []

def actionVerbPatterns : List (Option Char → Str → Option (Nat × Str)) :=
  [matchStyle (wordListPat actionVerbWords)]

/-- `extractActionVerbs` from the source. -/
def extractActionVerbs (text : Str) : List Str :=
  actionVerbPatterns.foldl
    (fun vs pat => addAll vs ((scanWith pat none text).map lowerStr)) []

/-- `ExtractedEntities` from `types/task.ts`. -/
structure ExtractedEntities where
  dates : List Str
  people : List Str
  locations : List Str
  actionVerbs : List Str
deriving DecidableEq, Repr

/-- `ClassificationResult` from `types/task.ts`. -/
structure ClassificationResult where
  category : TaskCategory
  priority : TaskPriority
  extracted_entities : ExtractedEntities
  suggested_actions : List String
deriving DecidableEq, Repr

/-- `classifyTask` from the source: the full text is the title, one space, and
the description, with original case preserved; the classifiers lowercase
internally, the extractors see the original casing. -/
def classifyTask (title description : Str) : ClassificationResult :=
  let fullText := title ++ [' '] ++ description
  let category := classifyCategory fullText
  let priority := classifyPriority fullText
  { category := category
    priority := priority
    extracted_entities :=
      { dates := extractDates fullText
        people := extractPeople fullText
        locations := extractLocations fullText
        actionVerbs := extractActionVerbs fullText }
    suggested_actions := suggestedActions category }

/-! ### Word-bounded occurrences of "next monday" -/

/-- The lowercased date phrase of the claims about "next Monday". -/
def occStr : Str := str "next monday"

/-- The character just before a position, given the characters `pre` since the
scan start and the character `prev` (if any) before the scan start. -/
def prevOf (prev : Option Char) (pre : Str) : Option Char :=
  match pre.getLast? with
  | some c => some c
  | none => prev

/-- A word-bounded, case-insensitive occurrence of "next monday" somewhere in
`l`, where `prev` is the character before `l` (none at text start): the
neighbouring characters, where present, are non-word characters. -/
def BoundedOcc (prev : Option Char) (l : Str) : Prop :=
  ∃ pre mid post, l = pre ++ mid ++ post ∧ lowerStr mid = occStr ∧
    nonWordOpt (prevOf prev pre) = true ∧ nonWordOpt post.head? = true

/-! ### Bridging `strIncludes` with `List.IsInfix` -/

theorem strIncludes_iff (hay needle : Str) : strIncludes hay needle = true ↔ needle <:+: hay := by
  induction hay with
  | nil => simp [strIncludes, List.isEmpty_iff, List.infix_nil]
  | cons c t ih =>
    simp [strIncludes, ih, List.infix_cons_iff, List.isPrefixOf_iff_prefix]

theorem anyKeywordMatch_iff (lower : Str) (l : List Str) :
    anyKeywordMatch lower l = true ↔ ∃ k ∈ l, k <:+: lower := by
  induction l with
  | nil => simp [anyKeywordMatch]
  | cons k t ih =>
    simp only [anyKeywordMatch]
    by_cases h : strIncludes lower k
    · simp only [h, if_true, true_iff]
      exact ⟨k, List.mem_cons_self k t, (strIncludes_iff lower k).mp h⟩
    · have hk : ¬ (k <:+: lower) := fun hc => h ((strIncludes_iff lower k).mpr hc)
      simp [h, ih, List.mem_cons, hk]

theorem foldl_count (p : Str → Bool) (l : List Str) (n : Nat) :
    l.foldl (fun s k => if p k then s + 1 else s) n = n + (l.filter p).length := by
  induction l generalizing n with
  | nil => simp
  | cons k t ih =>
    by_cases h : p k <;> simp [List.filter_cons, h, ih]
    all_goals omega

theorem scoreKeywords_eq_specScore (lower : Str) (c : TaskCategory) :
    scoreKeywords lower (categoryKeywords c) = specScore lower c := by
  simpa [scoreKeywords, specScore] using
    foldl_count (fun k => strIncludes lower k) (categoryKeywords c) 0

theorem classifyCategory_eq_spec_aux (text : Str) :
    classifyCategory text = classifyCategorySpec text := by
  unfold classifyCategory classifyCategorySpec
  simp only [categoryOrder, nonGeneral, classifyCategoryLoop, scoreKeywords_eq_specScore,
    specMaxScore, List.map_cons, List.map_nil, List.foldr_cons, List.foldr_nil,
    reduceCtorEq, reduceIte]
  split_ifs <;> first | rfl | (exfalso; omega)

theorem specScore_eq_zero_iff (lower : Str) (c : TaskCategory) :
    specScore lower c = 0 ↔ ∀ k ∈ categoryKeywords c, ¬ (k <:+: lower) := by
  simp [specScore, List.length_eq_zero, List.filter_eq_nil_iff, strIncludes_iff]

theorem spec_general_iff (text : Str) :
    classifyCategorySpec text = .general ↔ specMaxScore (lowerStr text) = 0 := by
  simp only [classifyCategorySpec]
  split_ifs <;> simp_all

theorem specMaxScore_eq_zero_iff (lower : Str) :
    specMaxScore lower = 0 ↔ ∀ c ∈ nonGeneral, specScore lower c = 0 := by
  simp only [specMaxScore, nonGeneral, List.map_cons, List.map_nil, List.foldr_cons,
    List.foldr_nil, List.mem_cons, List.not_mem_nil, or_false, forall_eq_or_imp, forall_eq]
  omega

theorem classifyPriority_eq_spec_aux (text : Str) :
    classifyPriority text =
      (if ∃ k ∈ priorityKeywords .high, k <:+: lowerStr text then .high
       else if ∃ k ∈ priorityKeywords .medium, k <:+: lowerStr text then .medium
       else .low) := by
  simp only [classifyPriority, anyKeywordMatch_iff]

theorem classifyPriority_high_of_kw (text : Str) (k : Str)
    (hk : k ∈ priorityKeywords .high) (h : k <:+: lowerStr text) :
    classifyPriority text = .high := by
  unfold classifyPriority
  have hm : anyKeywordMatch (lowerStr text) (priorityKeywords .high) = true :=
    (anyKeywordMatch_iff _ _).mpr ⟨k, hk, h⟩
  simp [hm]

/-! ### Claims about the keyword classifiers -/

/-- Claim C1: for every input text, `classifyCategory` scores each non-general
category, in the fixed order scheduling, finance, technical, safety, by the
number of distinct keywords of the category occurring as substrings of the
lowercased text, and returns the first category to reach the strictly highest
score (earlier category wins a tie); if every category scores 0 it returns
general.  Stated as equality with the spec-side formulation
`classifyCategorySpec`. -/
theorem claim_C1_classifyCategory_matches_spec (text : Str) :
    classifyCategory text = classifyCategorySpec text :=
  classifyCategory_eq_spec_aux text

/-- Claim C2: for every input text, `classifyPriority` returns high if any
high keyword is a substring of the lowercased text, otherwise medium if any
medium keyword is, otherwise low; no scoring, and the low keyword list is
never consulted. -/
theorem claim_C2_classifyPriority_matches_spec (text : Str) :
    classifyPriority text =
      (if ∃ k ∈ priorityKeywords .high, k <:+: lowerStr text then .high
       else if ∃ k ∈ priorityKeywords .medium, k <:+: lowerStr text then .medium
       else .low) :=
  classifyPriority_eq_spec_aux text

/-- Claim C4: `classifyCategory` returns general if and only if no keyword of
any non-general category occurs as a substring of the lowercased text. -/
theorem claim_C4_general_iff_no_keyword (text : Str) :
    classifyCategory text = .general ↔
      ∀ c, c ≠ TaskCategory.general → ∀ k ∈ categoryKeywords c, ¬ (k <:+: lowerStr text) := by
  rw [classifyCategory_eq_spec_aux, spec_general_iff, specMaxScore_eq_zero_iff]
  constructor
  · intro h c hc
    refine (specScore_eq_zero_iff _ _).mp (h c ?_)
    cases c <;> simp_all [nonGeneral]
  · intro h c hc
    have hne : c ≠ TaskCategory.general := by
      rintro rfl
      simp [nonGeneral] at hc
    exact (specScore_eq_zero_iff _ _).mpr (h c hne)

/-- Claim C9: any text whose lowercased form contains "important" is
classified high, never medium; "important" sits in both the high and the
medium keyword lists, and the high list is checked first. -/
theorem claim_C9_important_always_high (text : Str)
    (h : str "important" <:+: lowerStr text) :
    str "important" ∈ priorityKeywords .high ∧
    str "important" ∈ priorityKeywords .medium ∧
    classifyPriority text = .high ∧ classifyPriority text ≠ .medium := by
  have hh : classifyPriority text = .high :=
    classifyPriority_high_of_kw text (str "important") (by decide) h
  refine ⟨by decide, by decide, hh, ?_⟩
  rw [hh]
  decide

/-- Witness for C9 at the concrete text "important". -/
theorem claim_C9_witness :
    str "important" <:+: lowerStr (str "important") ∧
    classifyPriority (str "important") = .high :=
  ⟨⟨[], [], by decide⟩,
    (claim_C9_important_always_high (str "important") ⟨[], [], by decide⟩).2.2.1⟩

/-- Claim C10: any text whose lowercased form contains "low priority" is
classified high (it necessarily contains the high keyword "priority"), so the
low keyword entry "low priority" can never cause a low classification. -/
theorem claim_C10_low_priority_kw_yields_high (text : Str)
    (h : str "low priority" <:+: lowerStr text) :
    classifyPriority text = .high ∧ classifyPriority text ≠ .low := by
  have hp : str "priority" <:+: str "low priority" := ⟨str "low ", [], by decide⟩
  have hh : classifyPriority text = .high :=
    classifyPriority_high_of_kw text (str "priority") (by decide) (hp.trans h)
  refine ⟨hh, ?_⟩
  rw [hh]
  decide

/-- Witness for C10 at the concrete text "low priority". -/
theorem claim_C10_witness :
    str "low priority" <:+: lowerStr (str "low priority") ∧
    classifyPriority (str "low priority") = .high :=
  ⟨⟨[], [], by decide⟩,
    (claim_C10_low_priority_kw_yields_high (str "low priority") ⟨[], [], by decide⟩).1⟩

/-! ### Soundness and completeness of the "next (weekday)" matcher -/

theorem matchLitCI_sound : ∀ (pat l : Str) (n : Nat), matchLitCI pat l = some n →
    n = pat.length ∧ n ≤ l.length ∧ lowerStr (l.take n) = pat := by
  intro pat
  induction pat with
  | nil =>
    intro l n h
    simp only [matchLitCI, Option.some_inj] at h
    subst h
    simp [lowerStr]
  | cons p ps ih =>
    intro l n h
    cases l with
    | nil => exact absurd h (by simp [matchLitCI])
    | cons c cs =>
      simp only [matchLitCI] at h
      by_cases hc : Char.toLower c = p
      · rw [if_pos hc] at h
        cases hm : matchLitCI ps cs with
        | none => rw [hm] at h; cases h
        | some m =>
          rw [hm] at h
          simp only [Option.map_some', Option.some.injEq] at h
          obtain ⟨h1, h2, h3⟩ := ih cs m hm
          subst h
          refine ⟨by simp [h1], by simp; omega, ?_⟩
          rw [List.take_succ_cons]
          show Char.toLower c :: lowerStr (cs.take m) = p :: ps
          rw [hc, h3]
      · rw [if_neg hc] at h; cases h

theorem matchLitCI_complete : ∀ (pat l : Str), pat <+: lowerStr l →
    matchLitCI pat l = some pat.length := by
  intro pat
  induction pat with
  | nil => intro l _; rfl
  | cons p ps ih =>
    intro l hp
    cases l with
    | nil => simp [lowerStr] at hp
    | cons c cs =>
      have hc : p = Char.toLower c ∧ ps <+: lowerStr cs := by
        simpa [lowerStr, List.cons_prefix_cons] using hp
      simp [matchLitCI, hc.1.symm, ih cs hc.2]

theorem firstAltEndB_sound : ∀ (alts : List Str) (l : Str) (n : Nat),
    firstAltEndB alts l = some n →
    ∃ w ∈ alts, matchLitCI w l = some n ∧ nonWordOpt (l.drop n).head? = true := by
  intro alts
  induction alts with
  | nil => intro l n h; cases h
  | cons a rest ih =>
    intro l n h
    simp only [firstAltEndB] at h
    cases hm : matchLitCI a l with
    | none =>
      rw [hm] at h
      obtain ⟨w, hw, h1, h2⟩ := ih l n h
      exact ⟨w, List.mem_cons_of_mem a hw, h1, h2⟩
    | some m =>
      rw [hm] at h
      have h' : (if nonWordOpt (l.drop m).head? = true then some m
          else firstAltEndB rest l) = some n := h
      by_cases hb : nonWordOpt (l.drop m).head? = true
      · rw [if_pos hb] at h'
        cases h'
        exact ⟨a, List.mem_cons_self a rest, hm, hb⟩
      · rw [if_neg hb] at h'
        obtain ⟨w, hw, h1, h2⟩ := ih l n h'
        exact ⟨w, List.mem_cons_of_mem a hw, h1, h2⟩

theorem prefixedAltsPat_sound (lit : Str) (alts : List Str) (prev : Option Char)
    (l : Str) (n : Nat) (h : prefixedAltsPat lit alts prev l = some n) :
    nonWordOpt prev = true ∧
    ∃ w ∈ alts, n = lit.length + w.length ∧ n ≤ l.length ∧
      lowerStr (l.take n) = lit ++ w ∧ nonWordOpt (l.drop n).head? = true := by
  unfold prefixedAltsPat at h
  by_cases hp : nonWordOpt prev = true
  · rw [if_pos hp] at h
    cases hlit : matchLitCI lit l with
    | none => rw [hlit] at h; cases h
    | some k =>
      rw [hlit] at h
      have h' : (firstAltEndB alts (l.drop k)).map (fun m => k + m) = some n := h
      cases halt : firstAltEndB alts (l.drop k) with
      | none => rw [halt] at h'; cases h'
      | some m =>
        rw [halt] at h'
        simp only [Option.map_some', Option.some.injEq] at h'
        obtain ⟨w, hw, hmm, hb⟩ := firstAltEndB_sound alts (l.drop k) m halt
        obtain ⟨hk1, hk2, hk3⟩ := matchLitCI_sound lit l k hlit
        obtain ⟨hm1, hm2, hm3⟩ := matchLitCI_sound w (l.drop k) m hmm
        subst h'
        have hlen : k + m ≤ l.length := by
          rw [List.length_drop] at hm2; omega
        refine ⟨hp, w, hw, by omega, hlen, ?_, ?_⟩
        · rw [List.take_add]
          simp only [lowerStr, List.map_append] at hk3 hm3 ⊢
          rw [hk3, hm3]
        · rw [← List.drop_drop]
          exact hb
  · rw [if_neg hp] at h; cases h

theorem lowerStr_take (l : Str) (n : Nat) : lowerStr (l.take n) = (lowerStr l).take n := by
  simp [lowerStr, List.map_take]

theorem lowerStr_drop (l : Str) (n : Nat) : lowerStr (l.drop n) = (lowerStr l).drop n := by
  simp [lowerStr, List.map_drop]

theorem prevOf_last (prev : Option Char) (pre : Str) (h : pre ≠ []) :
    prevOf prev pre = pre.getLast? := by
  unfold prevOf
  cases hq : pre.getLast? with
  | some x => rfl
  | none => exact absurd (List.getLast?_eq_none_iff.mp hq) h

theorem firstAltEndB_cons_none {a : Str} {alts : List Str} {l : Str}
    (h : matchLitCI a l = none) : firstAltEndB (a :: alts) l = firstAltEndB alts l := by
  have e : firstAltEndB (a :: alts) l =
      (match matchLitCI a l with
        | some n => if nonWordOpt (l.drop n).head? = true then some n else firstAltEndB alts l
        | none => firstAltEndB alts l) := rfl
  rw [e, h]

theorem firstAltEndB_cons_some {a : Str} {alts : List Str} {l : Str} {n : Nat}
    (h : matchLitCI a l = some n) (hb : nonWordOpt (l.drop n).head? = true) :
    firstAltEndB (a :: alts) l = some n := by
  have e : firstAltEndB (a :: alts) l =
      (match matchLitCI a l with
        | some n => if nonWordOpt (l.drop n).head? = true then some n else firstAltEndB alts l
        | none => firstAltEndB alts l) := rfl
  rw [e, h]
  show (if nonWordOpt (l.drop n).head? = true then some n else firstAltEndB alts l) = some n
  rw [if_pos hb]

theorem d7_complete (prev : Option Char) (l : Str)
    (h1 : occStr <+: lowerStr l) (h2 : nonWordOpt prev = true)
    (h3 : nonWordOpt (l.drop 11).head? = true) :
    prefixedAltsPat (str "next ") nextWords prev l = some 11 := by
  have hnext : (str "next ") <+: lowerStr l :=
    List.IsPrefix.trans (by decide) h1
  have hlit : matchLitCI (str "next ") l = some 5 := matchLitCI_complete _ _ hnext
  have hmon : (str "monday") <+: lowerStr (l.drop 5) := by
    obtain ⟨t, ht⟩ := h1
    rw [lowerStr_drop, ← ht, List.drop_append_of_le_length (by decide)]
    have hoc : occStr.drop 5 = str "monday" := by decide
    rw [hoc]
    exact List.prefix_append _ _
  have refute : ∀ w : Str, ∀ m : Nat, matchLitCI w (l.drop 5) = some m →
      w <+: lowerStr (l.drop 5) := by
    intro w m hw
    obtain ⟨e1, e2, e3⟩ := matchLitCI_sound _ _ _ hw
    rw [← e3]
    exact (List.take_prefix _ _).map Char.toLower
  have hweek : matchLitCI (str "week") (l.drop 5) = none := by
    cases hw : matchLitCI (str "week") (l.drop 5) with
    | none => rfl
    | some m =>
      rcases List.prefix_or_prefix_of_prefix (refute _ _ hw) hmon with hc | hc
      · exact absurd hc (by decide)
      · exact absurd hc (by decide)
  have hmonth : matchLitCI (str "month") (l.drop 5) = none := by
    cases hw : matchLitCI (str "month") (l.drop 5) with
    | none => rfl
    | some m =>
      rcases List.prefix_or_prefix_of_prefix (refute _ _ hw) hmon with hc | hc
      · exact absurd hc (by decide)
      · exact absurd hc (by decide)
  have hmond : matchLitCI (str "monday") (l.drop 5) = some 6 :=
    matchLitCI_complete (str "monday") (l.drop 5) hmon
  have hbd : nonWordOpt ((l.drop 5).drop 6).head? = true := by
    rw [List.drop_drop]
    exact h3
  have halts : firstAltEndB nextWords (l.drop 5) = some 6 := by
    show firstAltEndB (str "week" :: str "month" :: str "monday" :: str "tuesday" ::
      str "wednesday" :: str "thursday" :: str "friday" :: []) (l.drop 5) = some 6
    rw [firstAltEndB_cons_none hweek, firstAltEndB_cons_none hmonth,
      firstAltEndB_cons_some hmond hbd]
  unfold prefixedAltsPat
  rw [if_pos h2, hlit]
  show (firstAltEndB nextWords (l.drop 5)).map (fun m => 5 + m) = some 11
  rw [halts]
  rfl

/-- No word-bounded occurrence of "next monday" can begin strictly inside a
match of the "next (week|month|weekday)" pattern: for each alternative, no
positive offset into the matched form agrees with `occStr`. -/
theorem no_inner_occ : ∀ w ∈ nextWords, ∀ j ∈ List.range (5 + w.length), 0 < j →
    ¬ ((str "next " ++ w).drop j <+: occStr) ∧ ¬ (occStr <+: (str "next " ++ w).drop j) := by
  decide

/-- The scan of the "next (weekday)" pattern finds a match lowercasing to
"next monday" whenever the text has a word-bounded occurrence of it. -/
theorem scanAux_d7_finds : ∀ (fuel : Nat) (l : Str) (prev : Option Char),
    l.length ≤ fuel → BoundedOcc prev l →
    ∃ m, m ∈ scanAux nextDatePat fuel prev l ∧ lowerStr m = occStr := by
  intro fuel
  induction fuel with
  | zero =>
    intro l prev hl hocc
    exfalso
    obtain ⟨pre, mid, post, he, hmid, hb1, hb2⟩ := hocc
    have hmidlen : mid.length = 11 := by
      have h := congrArg List.length hmid
      simp only [lowerStr, List.length_map] at h
      exact h.trans rfl
    have h0 := congrArg List.length he
    simp only [List.length_append] at h0
    omega
  | succ fuel ih =>
    intro l prev hl hocc
    obtain ⟨pre, mid, post, he, hmid, hb1, hb2⟩ := hocc
    have hmidlen : mid.length = 11 := by
      have h := congrArg List.length hmid
      simp only [lowerStr, List.length_map] at h
      exact h.trans rfl
    cases l with
    | nil =>
      exfalso
      have h0 := congrArg List.length he
      simp only [List.length_nil, List.length_append] at h0
      omega
    | cons c rest =>
      cases hm : nextDatePat prev (c :: rest) with
      | none =>
        have hscan : scanAux nextDatePat (fuel + 1) prev (c :: rest)
            = scanAux nextDatePat fuel (some c) rest := by
          simp [scanAux, hm]
        cases pre with
        | nil =>
          exfalso
          simp only [List.nil_append] at he
          have hlow : lowerStr (c :: rest) = occStr ++ lowerStr post := by
            rw [he]
            simp only [lowerStr, List.map_append]
            rw [show List.map Char.toLower mid = occStr from hmid]
          have hpref : occStr <+: lowerStr (c :: rest) := by
            rw [hlow]; exact List.prefix_append _ _
          have hafter : nonWordOpt ((c :: rest).drop 11).head? = true := by
            rw [he, ← hmidlen, List.drop_left]
            exact hb2
          have hprev : nonWordOpt prev = true := hb1
          have hc11 := d7_complete prev (c :: rest) hpref hprev hafter
          have hne : nextDatePat prev (c :: rest) = some (11, (c :: rest).take 11) := by
            unfold nextDatePat matchStyle
            rw [hc11]
            rfl
          rw [hm] at hne
          cases hne
        | cons p pre2 =>
          simp only [List.cons_append, List.cons.injEq] at he
          obtain ⟨he1, he2⟩ := he
          subst he1
          have hocc2 : BoundedOcc (some c) rest := by
            refine ⟨pre2, mid, post, he2, hmid, ?_, hb2⟩
            have hpe : prevOf (some c) pre2 = prevOf prev (c :: pre2) := by
              cases pre2 with
              | nil => rfl
              | cons q qs =>
                unfold prevOf
                rw [List.getLast?_cons_cons]
                cases hg : (q :: qs).getLast? with
                | some x => rfl
                | none => exact absurd (List.getLast?_eq_none_iff.mp hg) (List.cons_ne_nil q qs)
            rw [hpe]
            exact hb1
          have hfu : rest.length ≤ fuel := by
            simp only [List.length_cons] at hl
            omega
          obtain ⟨m, hmem, hml⟩ := ih rest (some c) hfu hocc2
          exact ⟨m, by rw [hscan]; exact hmem, hml⟩
      | some pr =>
        obtain ⟨n, payload⟩ := pr
        have hm' := hm
        unfold nextDatePat matchStyle at hm'
        have hcore1 : prefixedAltsPat (str "next ") nextWords prev (c :: rest) = some n ∧
            payload = (c :: rest).take n := by
          cases hc : prefixedAltsPat (str "next ") nextWords prev (c :: rest) with
          | none => rw [hc] at hm'; cases hm'
          | some k =>
            rw [hc] at hm'
            simp only [Option.map_some', Option.some.injEq, Prod.mk.injEq] at hm'
            obtain ⟨hk, hp⟩ := hm'
            subst hk
            exact ⟨rfl, hp.symm⟩
        obtain ⟨hcore, hpay⟩ := hcore1
        obtain ⟨hprev, w, hw, hn, hnle, hform, hafter⟩ :=
          prefixedAltsPat_sound _ _ _ _ _ hcore
        have hlen5 : (str "next ").length = 5 := rfl
        have hn' : n = 5 + w.length := by omega
        have hmax : max n 1 = n := by omega
        have hscan : scanAux nextDatePat (fuel + 1) prev (c :: rest)
            = payload :: scanAux nextDatePat fuel
                (some (((c :: rest).take n).getLastD c)) ((c :: rest).drop n) := by
          simp [scanAux, hm, hmax]
        by_cases h0 : pre.length = 0
        · have hpre0 : pre = [] := List.length_eq_zero.mp h0
          subst hpre0
          simp only [List.nil_append] at he
          have hlow : lowerStr (c :: rest) = occStr ++ lowerStr post := by
            rw [he]
            simp only [lowerStr, List.map_append]
            rw [show List.map Char.toLower mid = occStr from hmid]
          have hpref : occStr <+: lowerStr (c :: rest) := by
            rw [hlow]; exact List.prefix_append _ _
          have hafter2 : nonWordOpt ((c :: rest).drop 11).head? = true := by
            rw [he, ← hmidlen, List.drop_left]
            exact hb2
          have hprev2 : nonWordOpt prev = true := hb1
          have h11 := d7_complete prev (c :: rest) hpref hprev2 hafter2
          rw [hcore] at h11
          injection h11 with hn11
          refine ⟨payload, by rw [hscan]; exact List.mem_cons_self _ _, ?_⟩
          rw [hpay, hn11, lowerStr_take]
          exact (List.prefix_iff_eq_take.mp hpref).symm
        · by_cases hcase : n ≤ pre.length
          · have hdrop : (c :: rest).drop n = pre.drop n ++ (mid ++ post) := by
              rw [he, List.append_assoc, List.drop_append_of_le_length hcase]
            have htake : (c :: rest).take n = pre.take n := by
              rw [he, List.append_assoc, List.take_append_of_le_length hcase]
            have hpre_ne : pre ≠ [] := fun hq => h0 (by simp [hq])
            have hocc2 : BoundedOcc (some (((c :: rest).take n).getLastD c))
                ((c :: rest).drop n) := by
              refine ⟨pre.drop n, mid, post, by rw [hdrop, List.append_assoc], hmid, ?_, hb2⟩
              cases hpd : pre.drop n with
              | nil =>
                have hplen2 : pre.length = n := by
                  have h2 := congrArg List.length hpd
                  simp only [List.length_drop, List.length_nil] at h2
                  omega
                show nonWordOpt (prevOf (some (((c :: rest).take n).getLastD c)) []) = true
                show nonWordOpt (some (((c :: rest).take n).getLastD c)) = true
                rw [htake, List.take_of_length_le (le_of_eq hplen2)]
                cases hq : pre.getLast? with
                | none => exact absurd (List.getLast?_eq_none_iff.mp hq) hpre_ne
                | some x =>
                  have hgd : pre.getLastD c = x := by
                    rw [List.getLastD_eq_getLast? c pre, hq]
                    rfl
                  rw [hgd]
                  have hx := hb1
                  rw [prevOf_last prev pre hpre_ne, hq] at hx
                  exact hx
              | cons q qs =>
                have hne2 : pre.drop n ≠ [] := by rw [hpd]; exact List.cons_ne_nil q qs
                rw [← hpd, prevOf_last _ _ hne2]
                have hgl2 : (pre.drop n).getLast? = pre.getLast? := by
                  conv_rhs => rw [← List.take_append_drop n pre]
                  exact (List.getLast?_append_of_ne_nil _ hne2).symm
                rw [hgl2, ← prevOf_last prev pre hpre_ne]
                exact hb1
            have hlc : (c :: rest).length = rest.length + 1 := rfl
            have hfu2 : ((c :: rest).drop n).length ≤ fuel := by
              rw [List.length_drop]
              omega
            obtain ⟨m, hmem, hml⟩ := ih _ _ hfu2 hocc2
            exact ⟨m, by rw [hscan]; exact List.mem_cons_of_mem _ hmem, hml⟩
          · exfalso
            have hj0 : 0 < pre.length := Nat.pos_of_ne_zero h0
            have hjn : pre.length < n := by omega
            have hlow : lowerStr (c :: rest) =
                lowerStr pre ++ (occStr ++ lowerStr post) := by
              rw [he, List.append_assoc]
              simp only [lowerStr, List.map_append]
              rw [show List.map Char.toLower mid = occStr from hmid]
            have hplen : (lowerStr pre).length = pre.length := by
              simp [lowerStr]
            have hocc11 : occStr.length = 11 := rfl
            have hdropj : (str "next " ++ w).drop pre.length =
                (occStr ++ lowerStr post).take (n - pre.length) := by
              rw [← hform, lowerStr_take, List.drop_take, hlow, ← hplen,
                List.drop_left, hplen]
            by_cases hsz : n - pre.length ≤ 11
            · have hta : (occStr ++ lowerStr post).take (n - pre.length) =
                  occStr.take (n - pre.length) :=
                List.take_append_of_le_length (by omega)
              have hpfx : (str "next " ++ w).drop pre.length <+: occStr := by
                rw [hdropj, hta]
                exact List.take_prefix _ _
              exact (no_inner_occ w hw pre.length
                (List.mem_range.mpr (by omega)) hj0).1 hpfx
            · have hta : (occStr ++ lowerStr post).take (n - pre.length) =
                  occStr ++ (lowerStr post).take (n - pre.length - 11) := by
                rw [List.take_append_eq_append_take,
                  List.take_of_length_le (by omega), hocc11]
              have hpfx : occStr <+: (str "next " ++ w).drop pre.length := by
                rw [hdropj, hta]
                exact List.prefix_append _ _
              exact (no_inner_occ w hw pre.length
                (List.mem_range.mpr (by omega)) hj0).2 hpfx

/-! ### Set insertion: membership and freedom from duplicates -/

theorem mem_setAdd (ds : List Str) (x y : Str) :
    y ∈ setAdd ds x ↔ y ∈ ds ∨ y = x := by
  unfold setAdd
  split_ifs with h
  · constructor
    · exact Or.inl
    · rintro (hy | rfl)
      · exact hy
      · exact h
  · simp [List.mem_append]

theorem mem_addAll : ∀ (ms ds : List Str) (y : Str),
    y ∈ addAll ds ms ↔ y ∈ ds ∨ y ∈ ms := by
  intro ms
  induction ms with
  | nil => intro ds y; simp [addAll]
  | cons m t ih =>
    intro ds y
    rw [show addAll ds (m :: t) = addAll (setAdd ds m) t from rfl, ih, mem_setAdd,
      List.mem_cons]
    tauto

theorem setAdd_nodup (ds : List Str) (x : Str) (h : ds.Nodup) : (setAdd ds x).Nodup := by
  unfold setAdd
  split_ifs with hx
  · exact h
  · simp [List.nodup_append, h, hx]

theorem addAll_nodup : ∀ (ms ds : List Str), ds.Nodup → (addAll ds ms).Nodup := by
  intro ms
  induction ms with
  | nil => intro ds h; exact h
  | cons m t ih => intro ds h; exact ih (setAdd ds m) (setAdd_nodup ds m h)

theorem foldl_addAll_nodup {α : Type} (f : α → List Str) :
    ∀ (pats : List α) (ds : List Str), ds.Nodup →
      (pats.foldl (fun ds p => addAll ds (f p)) ds).Nodup := by
  intro pats
  induction pats with
  | nil => intro ds h; exact h
  | cons p t ih => intro ds h; exact ih _ (addAll_nodup _ _ h)

theorem extractDates_nodup (text : Str) : (extractDates text).Nodup :=
  foldl_addAll_nodup (fun pat => (scanWith pat none text).map lowerStr)
    datePatterns [] List.nodup_nil

theorem extractDates_mem_d7 (text m : Str)
    (hm : m ∈ scanWith nextDatePat none text) : lowerStr m ∈ extractDates text := by
  show lowerStr m ∈ datePatterns.foldl
    (fun ds pat => addAll ds ((scanWith pat none text).map lowerStr)) []
  simp only [datePatterns, List.foldl_cons, List.foldl_nil]
  rw [mem_addAll]
  exact Or.inr (List.mem_map_of_mem lowerStr hm)

/-! ### Claims about `classifyTask` assembly -/

/-- Claim C3: `classifyTask` builds the text as title, one space, description
(original case preserved) and returns exactly the record assembling the two
classifiers, the four extractors, and the suggested actions of the category. -/
theorem claim_C3_classifyTask_assembly (title description : Str) :
    classifyTask title description =
      { category := classifyCategory (title ++ [' '] ++ description)
        priority := classifyPriority (title ++ [' '] ++ description)
        extracted_entities :=
          { dates := extractDates (title ++ [' '] ++ description)
            people := extractPeople (title ++ [' '] ++ description)
            locations := extractLocations (title ++ [' '] ++ description)
            actionVerbs := extractActionVerbs (title ++ [' '] ++ description) }
        suggested_actions :=
          suggestedActions (classifyCategory (title ++ [' '] ++ description)) } := rfl

/-- Claim C5: the suggested actions are exactly the static table entry of the
resulting category, and depend only on the category: inputs classifying to
the same category get identical suggested-actions lists. -/
theorem claim_C5_actions_depend_only_on_category :
    (∀ title description : Str,
      (classifyTask title description).suggested_actions =
        suggestedActions (classifyTask title description).category) ∧
    (∀ t1 d1 t2 d2 : Str,
      (classifyTask t1 d1).category = (classifyTask t2 d2).category →
        (classifyTask t1 d1).suggested_actions = (classifyTask t2 d2).suggested_actions) := by
  refine ⟨fun t d => rfl, fun t1 d1 t2 d2 h => ?_⟩
  calc (classifyTask t1 d1).suggested_actions
      = suggestedActions (classifyTask t1 d1).category := rfl
    _ = suggestedActions (classifyTask t2 d2).category := by rw [h]
    _ = (classifyTask t2 d2).suggested_actions := rfl

/-- Witness for C5: two different texts that both classify to general receive
the same suggested actions. -/
theorem claim_C5_witness :
    (classifyTask (str "aaa") []).suggested_actions =
      (classifyTask (str "zzz") []).suggested_actions :=
  claim_C5_actions_depend_only_on_category.2 (str "aaa") [] (str "zzz") [] (by decide)

/-- Claim C6: `classifyTask` is deterministic — identical inputs give
identical outputs in every component. -/
theorem claim_C6_deterministic (t1 d1 t2 d2 : Str) (ht : t1 = t2) (hd : d1 = d2) :
    classifyTask t1 d1 = classifyTask t2 d2 := by rw [ht, hd]

/-- Witness for C6 at concrete input. -/
theorem claim_C6_witness :
    classifyTask (str "fix bug") (str "asap") = classifyTask (str "fix bug") (str "asap") :=
  claim_C6_deterministic (str "fix bug") (str "asap") (str "fix bug") (str "asap") rfl rfl

/-- Claim C8 (amended): for every input whose concatenated text contains a
word-bounded occurrence of "next Monday" (case-insensitive; not preceded or
followed by a word character `[A-Za-z0-9_]`), the dates list of the result
contains "next monday"; and for every input whatsoever the dates list has no
duplicate entries. -/
theorem claim_C8_amended_bounded_next_monday (title description : Str) :
    (classifyTask title description).extracted_entities.dates.Nodup ∧
    (BoundedOcc none (title ++ [' '] ++ description) →
      occStr ∈ (classifyTask title description).extracted_entities.dates) := by
  constructor
  · exact extractDates_nodup _
  · intro h
    obtain ⟨m, hmem, hml⟩ := scanAux_d7_finds (title ++ [' '] ++ description).length
      (title ++ [' '] ++ description) none le_rfl h
    have hmm := extractDates_mem_d7 (title ++ [' '] ++ description) m hmem
    rw [hml] at hmm
    exact hmm

/-- Witness for C8 at the concrete input: title "next Monday", empty
description. -/
theorem claim_C8_witness :
    BoundedOcc none (str "next Monday" ++ [' '] ++ []) ∧
    occStr ∈ (classifyTask (str "next Monday") []).extracted_entities.dates := by
  have hb : BoundedOcc none (str "next Monday" ++ [' '] ++ []) :=
    ⟨[], str "next Monday", [' '], by decide, by decide, by decide, by decide⟩
  exact ⟨hb, (claim_C8_amended_bounded_next_monday (str "next Monday") []).2 hb⟩

/-- Counterexample to C8 as stated: the inputs "annext Monday" and
"next Mondays" (empty descriptions) both produce a text containing the
substring "next Monday", yet the extracted dates do not contain
"next monday" — the `\bnext (...)\b` regex requires word boundaries on both
sides of the occurrence. -/
theorem claim_C8_counterexample :
    (str "next Monday" <:+: (str "annext Monday" ++ [' '] ++ []) ∧
      occStr ∉ (classifyTask (str "annext Monday") []).extracted_entities.dates) ∧
    (str "next Monday" <:+: (str "next Mondays" ++ [' '] ++ []) ∧
      occStr ∉ (classifyTask (str "next Mondays") []).extracted_entities.dates) := by
  refine ⟨⟨⟨str "an", [' '], by decide⟩, ?_⟩, ⟨⟨[], str "s ", by decide⟩, ?_⟩⟩
  · decide
  · decide

/-- Claim C7: empty title and empty description yield category general,
priority low, and four empty entity lists. -/
theorem claim_C7_empty_input :
    (classifyTask [] []).category = .general ∧
    (classifyTask [] []).priority = .low ∧
    (classifyTask [] []).extracted_entities.dates = [] ∧
    (classifyTask [] []).extracted_entities.people = [] ∧
    (classifyTask [] []).extracted_entities.locations = [] ∧
    (classifyTask [] []).extracted_entities.actionVerbs = [] := by decide

end STM
